import Mathlib

/-!
Verification development for the HackrX insurance query-processing service.

Text is modelled as `List Char` (Python `str`). The regular-expression
searches that the code performs (`re.search`, `re.finditer`, `re.split`,
`re.sub`) are embedded as explicit executable scanners over character lists,
each one faithful to the concrete pattern written in the source, including
case-insensitivity (via lowercasing), word boundaries, leftmost-match order,
the fact that the dot wildcard does not match a newline, and Python
truthiness of the optional fields.

External collaborators (the embedding HTTP API, `faiss`, the file system and
pickle) are modelled as explicit function parameters or `Except` values, with
faiss flat-inner-product search modelled from its documented behaviour
(top-k by inner product, missing slots padded with label -1).
-/

/-! ## Character and string utilities -/

/-- Python whitespace set used by `\s`, `str.split()` and `str.strip()`
(ASCII fragment, which covers all inputs of this code base). -/
def isWs (c : Char) : Bool :=
  c = ' ' || c = '\t' || c = '\n' || c = '\r' || c = '\x0b' || c = '\x0c'

/-- The `\w` character class (ASCII fragment). -/
def isWordChar (c : Char) : Bool :=
  c.isAlpha || c.isDigit || c = '_'

/-- The `[A-Z]` character class. -/
def isUpperAZ (c : Char) : Bool := 'A' ≤ c && c ≤ 'Z'

/-- Lowercasing of a whole text, used to model `str.lower()` and
`re.IGNORECASE` on literal patterns. -/
def lowerList (cs : List Char) : List Char := cs.map Char.toLower

/-- Python `str.strip()`: drop whitespace from both ends. -/
def trim (cs : List Char) : List Char :=
  ((cs.dropWhile isWs).reverse.dropWhile isWs).reverse

theorem dropWhile_len_le (p : Char → Bool) (l : List Char) :
    (l.dropWhile p).length ≤ l.length := by
  induction l with
  | nil => simp [List.dropWhile]
  | cons c rest ih =>
    simp only [List.dropWhile]
    split
    · exact Nat.le_succ_of_le ih
    · simp

theorem trim_len_le (cs : List Char) : (trim cs).length ≤ cs.length := by
  unfold trim
  calc ((cs.dropWhile isWs).reverse.dropWhile isWs).reverse.length
      = ((cs.dropWhile isWs).reverse.dropWhile isWs).length := by
        simp
    _ ≤ (cs.dropWhile isWs).reverse.length := dropWhile_len_le _ _
    _ = (cs.dropWhile isWs).length := by simp
    _ ≤ cs.length := dropWhile_len_le _ _

theorem dropWhile_eq_nil_iff_all (p : Char → Bool) (l : List Char) :
    l.dropWhile p = [] ↔ ∀ c ∈ l, p c := by
  induction l with
  | nil => simp [List.dropWhile]
  | cons c rest ih =>
    simp only [List.dropWhile]
    split
    · simp_all
    · simp_all

theorem mem_of_mem_dropWhileL {p : Char → Bool} {c : Char} {l : List Char}
    (h : c ∈ l.dropWhile p) : c ∈ l := by
  induction l with
  | nil => simp [List.dropWhile] at h
  | cons a rest ih =>
    simp only [List.dropWhile] at h
    split at h
    · exact List.mem_cons_of_mem a (ih h)
    · exact h

theorem trim_eq_nil_iff (cs : List Char) :
    trim cs = [] ↔ ∀ c ∈ cs, isWs c := by
  unfold trim
  rw [List.reverse_eq_nil_iff, dropWhile_eq_nil_iff_all]
  constructor
  · intro h c hc
    by_cases hw : isWs c
    · exact hw
    · have hsplit := List.takeWhile_append_dropWhile (p := isWs) (l := cs)
      rw [← hsplit] at hc
      rcases List.mem_append.mp hc with h1 | h2
      · exact absurd (List.mem_takeWhile_imp h1) hw
      · exact absurd (h c (by simpa using h2)) hw
  · intro h c hc
    rw [List.mem_reverse] at hc
    exact h c (mem_of_mem_dropWhileL hc)

theorem exists_nonWs_of_trim_ne_nil {cs : List Char} (h : trim cs ≠ []) :
    ∃ c ∈ cs, ¬ isWs c := by
  by_contra hall
  push_neg at hall
  exact h ((trim_eq_nil_iff cs).mpr (by simpa using hall))

theorem trim_ne_nil_of_mem_nonWs {cs : List Char} {c : Char}
    (hm : c ∈ cs) (hw : ¬ isWs c) : trim cs ≠ [] := by
  intro h
  exact hw ((trim_eq_nil_iff cs).mp h c hm)

/-- Digits of a decimal digit string as a number (`int` on a digit run). -/
def digitsToNat (ds : List Char) : Nat :=
  ds.foldl (fun n c => 10 * n + (c.toNat - 48)) 0

/-- Decimal rendering of a natural number, used for the f-strings of the
decision engine. -/
def natChars (n : Nat) : List Char := Nat.toDigits 10 n

/-- Decimal rendering of a Python int. -/
def intChars (i : Int) : List Char :=
  if i < 0 then '-' :: natChars i.natAbs else natChars i.natAbs

/-- Python list indexing, which accepts negative indices counting from the
end; out-of-range access (an `IndexError`) is `none`. -/
def pyGet (l : List α) (i : Int) : Option α :=
  if 0 ≤ i then l.get? i.toNat
  else if (-i).toNat ≤ l.length then l.get? (l.length - (-i).toNat)
  else none

/-- Python `str.split()` with no argument: split on whitespace runs,
dropping empty tokens; `cur` accumulates the current token reversed. -/
def pyTokensAux (cur : List Char) : List Char → List (List Char)
  | [] => if cur.isEmpty then [] else [cur.reverse]
  | c :: rest =>
    if isWs c then (if cur.isEmpty then [] else [cur.reverse]) ++ pyTokensAux [] rest
    else pyTokensAux (c :: cur) rest

def pyTokens (l : List Char) : List (List Char) := pyTokensAux [] l

/-- Python `int()` on a token: an optional sign followed by at least one
digit (underscore separators never occur in this code's inputs); `none`
models the `ValueError` raised otherwise. -/
def pyInt (s : List Char) : Option Int :=
  match s with
  | '-' :: ds =>
    if !ds.isEmpty && ds.all Char.isDigit then some (-(digitsToNat ds : Int)) else none
  | '+' :: ds =>
    if !ds.isEmpty && ds.all Char.isDigit then some ((digitsToNat ds : Int)) else none
  | ds =>
    if !ds.isEmpty && ds.all Char.isDigit then some ((digitsToNat ds : Int)) else none

/-- `int(s.split()[0])`: `none` models the `IndexError`/`ValueError` path. -/
def pyFirstTokenInt (s : List Char) : Option Int :=
  match pyTokens s with
  | [] => none
  | t :: _ => pyInt t

/-- Python truthiness of an optional int field (`if query.age:`). -/
def truthyOptInt : Option Int → Bool
  | some a => !(a == 0)
  | none => false

/-- Python truthiness of an optional string field (`if query.location:`). -/
def truthyOptStr : Option (List Char) → Bool
  | some s => !s.isEmpty
  | none => false

/-- Joining a list of strings with the separator of `". ".join(...)`. -/
def joinDotSp (l : List (List Char)) : List Char :=
  List.intercalate (". ".toList) l

/-! ## QueryHandler._extract_gender

Source: `query_handler.py`, lines 49-55.  The two patterns are
`\bfemale\b|\bwoman\b|\bgirl\b|\b(\d+)f\b` and
`\bmale\b|\bman\b|\bboy\b|\b(\d+)m\b`; `re.search` only drives an
if/elif, so each pattern reduces to "some alternative occurs somewhere". -/

/-- Whether the remainder after a candidate word satisfies the closing
`\b` (end of string or a non-word character). -/
def boundaryAfter : List Char → Bool
  | [] => true
  | c :: _ => !isWordChar c

/-- Occurrence scan for `\bw\b` where `w` is a word-character literal;
`prevW` records whether the previous character is a word character
(the opening `\b`). -/
def wordOccAux (w : List Char) (prevW : Bool) : List Char → Bool
  | [] => false
  | c :: rest =>
    (!prevW && w.isPrefixOf (c :: rest) && boundaryAfter ((c :: rest).drop w.length))
      || wordOccAux w (isWordChar c) rest

def wordOcc (w q : List Char) : Bool := wordOccAux w false q

/-- Match of `(\d+)suf\b` starting exactly here: a maximal digit run, the
suffix letter, then a word boundary.  (A shorter digit run cannot rescue a
failed boundary, since backtracking `\d+` leaves a digit under `suf`.) -/
def shorthandAt (suf : Char) (cs : List Char) : Bool :=
  let ds := cs.takeWhile Char.isDigit
  !ds.isEmpty &&
    (match cs.drop ds.length with
     | c :: rest => c = suf && boundaryAfter rest
     | [] => false)

/-- Occurrence scan for `\b(\d+)suf\b`. -/
def shorthandOccAux (suf : Char) (prevW : Bool) : List Char → Bool
  | [] => false
  | c :: rest =>
    (!prevW && shorthandAt suf (c :: rest)) || shorthandOccAux suf (isWordChar c) rest

def shorthandOcc (suf : Char) (q : List Char) : Bool := shorthandOccAux suf false q

def wFemale : List Char := "female".toList
def wWoman : List Char := "woman".toList
def wGirl : List Char := "girl".toList
def wMale : List Char := "male".toList
def wMan : List Char := "man".toList
def wBoy : List Char := "boy".toList

/-- The female alternation `\bfemale\b|\bwoman\b|\bgirl\b|\b(\d+)f\b`. -/
def femaleRe (q : List Char) : Bool :=
  wordOcc wFemale q || wordOcc wWoman q || wordOcc wGirl q || shorthandOcc 'f' q

/-- The male alternation `\bmale\b|\bman\b|\bboy\b|\b(\d+)m\b`. -/
def maleRe (q : List Char) : Bool :=
  wordOcc wMale q || wordOcc wMan q || wordOcc wBoy q || shorthandOcc 'm' q

/-- `QueryHandler._extract_gender` (the argument is the lowercased query,
exactly as `parse_query` passes it). -/
def extractGender (q : List Char) : Option (List Char) :=
  if femaleRe q then some ("female".toList)
  else if maleRe q then some ("male".toList)
  else none

/-! ## Decision-engine regex searches

Source: `query_handler.py`.  Each Python `re` pattern is embedded as a
scanner with the same leftmost-match semantics; `.` and the lazy `.*?`
never cross a newline, while explicit classes such as `[^\d]+` and `\s*`
do.  `re.IGNORECASE` is modelled by lowercasing text and literals. -/

/-- Maximal digit runs (`\d+` candidates) reachable from the current
position without crossing a newline (a lazy `.*?` cannot pass one), each
paired with the suffix that follows the run; `curRun` accumulates the
current run reversed. -/
def runsSLAux (curRun : List Char) : List Char → List (List Char × List Char)
  | [] => if curRun.isEmpty then [] else [(curRun.reverse, [])]
  | c :: rest =>
    if Char.isDigit c then runsSLAux (c :: curRun) rest
    else if c = '\n' then (if curRun.isEmpty then [] else [(curRun.reverse, c :: rest)])
    else (if curRun.isEmpty then [] else [(curRun.reverse, c :: rest)]) ++ runsSLAux [] rest

def runsSameLine (cs : List Char) : List (List Char × List Char) := runsSLAux [] cs

/-- First maximal digit run anywhere in the text (`[^\d]+` may cross
newlines on the way), with the suffix after it. -/
def firstRunAux (curRun : List Char) : List Char → Option (List Char × List Char)
  | [] => if curRun.isEmpty then none else some (curRun.reverse, [])
  | c :: rest =>
    if Char.isDigit c then firstRunAux (c :: curRun) rest
    else if curRun.isEmpty then firstRunAux [] rest
    else some (curRun.reverse, c :: rest)

def firstRunAnywhere (cs : List Char) : Option (List Char × List Char) :=
  firstRunAux [] cs

/-- Completion of `.*?(\d+)[^\d]+(\d+)` after the literal: the earliest
same-line digit run that is followed by a further digit run anywhere
(backtracking skips runs with no successor). -/
def firstPairWithSuccessor : List (List Char × List Char) → Option (Int × Int)
  | [] => none
  | (r1, rest) :: more =>
    match firstRunAnywhere rest with
    | some (r2, _) => some ((digitsToNat r1 : Int), (digitsToNat r2 : Int))
    | none => firstPairWithSuccessor more

def ageLimitLit : List Char := "age limit".toList

/-- Scan for `age limit.*?(\d+)[^\d]+(\d+)` (IGNORECASE): each literal
occurrence is tried left to right; the input is already lowercased. -/
def ageLimitSearchAux : List Char → Option (Int × Int)
  | [] => none
  | c :: rest =>
    match
      (if ageLimitLit.isPrefixOf (c :: rest) then
        firstPairWithSuccessor (runsSameLine ((c :: rest).drop ageLimitLit.length))
      else none) with
    | some p => some p
    | none => ageLimitSearchAux rest

/-- `re.search(r'age limit.*?(\d+)[^\d]+(\d+)', policy_text, re.IGNORECASE)`
returning the two captured numbers (`query_handler.py`, line 150). -/
def ageLimitSearch (t : List Char) : Option (Int × Int) :=
  ageLimitSearchAux (lowerList t)

def waitingLit : List Char := "waiting period".toList
def monthsLit : List Char := "months".toList

/-- Condition `\s*months` at the given suffix (the `\s*` may cross a
newline). -/
def monthsAfter (cs : List Char) : Bool :=
  monthsLit.isPrefixOf (cs.dropWhile isWs)

/-- Completion of `.*?(\d+)\s*months`: the earliest same-line digit run
whose end is followed by optional whitespace and the literal. -/
def firstRunBeforeMonths : List (List Char × List Char) → Option Int
  | [] => none
  | (r, rest) :: more =>
    if monthsAfter rest then some ((digitsToNat r : Int))
    else firstRunBeforeMonths more

def waitingPeriodSearchAux : List Char → Option Int
  | [] => none
  | c :: rest =>
    match
      (if waitingLit.isPrefixOf (c :: rest) then
        firstRunBeforeMonths (runsSameLine ((c :: rest).drop waitingLit.length))
      else none) with
    | some p => some p
    | none => waitingPeriodSearchAux rest

/-- `re.search(r'waiting period.*?(\d+)\s*months', policy_text,
re.IGNORECASE)` returning the captured number (`query_handler.py`,
line 162). -/
def waitingPeriodSearch (t : List Char) : Option Int :=
  waitingPeriodSearchAux (lowerList t)

def networkHosp : List Char := "network hospitals".toList
def networkProv : List Char := "network providers".toList

/-- Occurrence of the literal `w` reachable without crossing a newline
(the lazy `.*?` between the network literal and the location). -/
def sameLineContains (w : List Char) : List Char → Bool
  | [] => w.isEmpty
  | c :: rest => w.isPrefixOf (c :: rest) || (!(c = '\n') && sameLineContains w rest)

def networkSearchAux (loc : List Char) : List Char → Bool
  | [] => false
  | c :: rest =>
    ((networkHosp.isPrefixOf (c :: rest) || networkProv.isPrefixOf (c :: rest)) &&
      sameLineContains loc ((c :: rest).drop networkHosp.length))
      || networkSearchAux loc rest

/-- `re.search(r'network (?:hospitals|providers).*?<location>', policy_text,
re.IGNORECASE)` as a Boolean (`query_handler.py`, lines 202-203).  The two
alternatives have equal length, so a single `drop` serves both. -/
def networkSearch (loc t : List Char) : Bool :=
  networkSearchAux (lowerList loc) (lowerList t)

/-! Coverage-amount pattern
`(?:<kw1>|<kw2>|...)[^.]*?(?:covered|coverage|limit)[^.]*?(\d{1,3}(?:,\d{3})*)`
evaluated with `re.finditer` (`query_handler.py`, lines 180-185).  The
keyword sets of this code base are plain lowercase words with distinct
first letters, so the alternation is modelled as literal substrings and at
most one branch can apply at a position. -/

def coverWords : List (List Char) := ["covered".toList, "coverage".toList, "limit".toList]

/-- The greedy amount group `\d{1,3}(?:,\d{3})*` starting at a digit: up
to three digits, then comma-separated triples; returns the digits with
commas removed (as `int(...y.replace(",", ""))` does) and the suffix after
the full match. -/
def commaGroups : List Char → List Char × List Char
  | ',' :: a :: b :: c :: r =>
    if a.isDigit && b.isDigit && c.isDigit then
      let p := commaGroups r
      (a :: b :: c :: p.1, p.2)
    else ([], ',' :: a :: b :: c :: r)
  | l => ([], l)

/-- First position of the amount group reachable without crossing a `.`
(the second `[^.]*?`); `\d{1,3}` always succeeds once a digit is found. -/
def findAmountNoDot : List Char → Option (Nat × List Char)
  | [] => none
  | c :: rest =>
    if c.isDigit then
      let run := c :: rest.takeWhile Char.isDigit
      let d1 := run.take 3
      let rest1 := (c :: rest).drop d1.length
      let p := commaGroups rest1
      some (digitsToNat (d1 ++ p.1), p.2)
    else if c = '.' then none
    else findAmountNoDot rest

/-- The word alternation `(?:covered|coverage|limit)` at a position,
returning the suffix after the matched word. -/
def coverWordAt (cs : List Char) : Option (List Char) :=
  coverWords.findSome? (fun w =>
    if w.isPrefixOf cs then some (cs.drop w.length) else none)

/-- Completion after a keyword: the earliest cover word reachable without
crossing a `.` that is itself followed by a reachable amount; on failure
the lazy `[^.]*?` advances one character. -/
def covCompleteAux : List Char → Option (Nat × List Char)
  | [] => none
  | c :: rest =>
    match coverWordAt (c :: rest) with
    | some rest2 =>
      match findAmountNoDot rest2 with
      | some p => some p
      | none => if c = '.' then none else covCompleteAux rest
    | none => if c = '.' then none else covCompleteAux rest

/-- Leftmost full match of the coverage pattern: try every start position;
a start must carry one of the keywords. -/
def covFindFirst (kws : List (List Char)) : List Char → Option (Nat × List Char)
  | [] => none
  | c :: rest =>
    match
      (kws.findSome? (fun w =>
        if w.isPrefixOf (c :: rest) then covCompleteAux ((c :: rest).drop w.length)
        else none)) with
    | some p => some p
    | none => covFindFirst kws rest

/-- `re.finditer`: repeated leftmost matches, each continuing after the end
of the previous match.  The fuel argument only bounds the number of
matches; every match consumes at least one character
(see `covFindFirst_len`), so `length + 1` is never exhausted. -/
def covAllAux (kws : List (List Char)) : Nat → List Char → List Nat
  | 0, _ => []
  | f + 1, cs =>
    match covFindFirst kws cs with
    | none => []
    | some (n, rest) => n :: covAllAux kws f rest

/-- All amounts produced by the finditer loop over the coverage pattern,
in match order (IGNORECASE: text and keywords lowercased). -/
def coverageAmounts (kws : List (List Char)) (t : List Char) : List Nat :=
  covAllAux (kws.map lowerList) (t.length + 1) (lowerList t)

/-- Decidable equality for `Except`, so that concrete runs of the
fallible operations can be evaluated inside proofs. -/
instance [DecidableEq ε] [DecidableEq α] : DecidableEq (Except ε α) := fun x y =>
  match x, y with
  | Except.error a, Except.error b =>
    if h : a = b then Decidable.isTrue (by rw [h])
    else Decidable.isFalse (fun hc => h (Except.error.inj hc))
  | Except.error _, Except.ok _ => Decidable.isFalse (fun hc => Except.noConfusion hc)
  | Except.ok _, Except.error _ => Decidable.isFalse (fun hc => Except.noConfusion hc)
  | Except.ok a, Except.ok b =>
    if h : a = b then Decidable.isTrue (by rw [h])
    else Decidable.isFalse (fun hc => h (Except.ok.inj hc))

/-! ## Data model (`models.py`) and the decision engine
(`query_handler.py`, lines 107-211) -/

/-- `StructuredQuery` (`models.py`): all fields optional, `policy_duration`
is a string such as `"12 months"`. -/
structure SQuery where
  age : Option Int := none
  gender : Option (List Char) := none
  procedure : Option (List Char) := none
  location : Option (List Char) := none
  policy_duration : Option (List Char) := none
  raw_query : List Char := []
deriving DecidableEq, Repr

/-- Metadata record stored per chunk (`{"filename": ..., "chunk_id": ...}`). -/
structure Meta where
  filename : List Char
  chunk_id : Nat
deriving DecidableEq, Repr

/-- One retrieved chunk as handed to `make_decision`
(`{"text": ..., "score": ..., "metadata": ...}` built by `search`). -/
structure SearchResult where
  text : List Char
  score : ℚ
  metadata : Meta
deriving DecidableEq, Repr

/-- The `justification` entry of the response dict: a Python list of
strings while the checks run, a plain string after the final join (or on
the list assigned by the no-justification branch). -/
inductive JustVal where
  | items : List (List Char) → JustVal
  | text : List Char → JustVal
deriving DecidableEq, Repr

/-- The response dict built by `make_decision`. -/
structure Response where
  decision : List Char
  amount : ℚ
  justification : JustVal
  clauses_used : List (List Char)
deriving DecidableEq, Repr

def rejectedStr : List Char := "rejected".toList
def approvedStr : List Char := "approved".toList

/-- `response["justification"].append(s)`; the justification is a list in
every reachable call (the join to a string happens only on return). -/
def appendJust (r : Response) (s : List Char) : Response :=
  { r with justification :=
      match r.justification with
      | JustVal.items l => JustVal.items (l ++ [s])
      | JustVal.text t => JustVal.text t }

/-- `policy_text = "\n".join([chunk['text'] for chunk in relevant_chunks])`. -/
def policyText (chunks : List SearchResult) : List Char :=
  List.intercalate ['\n'] (chunks.map (fun c => c.text))

def ageMsg (a lo hi : Int) : List Char :=
  "Age ".toList ++ intChars a ++ " outside coverage range (".toList ++
    intChars lo ++ ['-'] ++ intChars hi ++ [')']

def durMsg (qm mm : Int) : List Char :=
  "Policy duration ".toList ++ intChars qm ++ " months less than minimum ".toList ++
    intChars mm

/-- Python `str.capitalize()`: first character uppercased, the rest
lowercased. -/
def pyCapitalize : List Char → List Char
  | [] => []
  | c :: rest => c.toUpper :: rest.map Char.toLower

def covJustMsg (proc : List Char) (amt : Nat) : List Char :=
  pyCapitalize proc ++ " covered up to Rs. ".toList ++ natChars amt

def covClauseMsg (proc : List Char) (amt : Nat) : List Char :=
  "Coverage for ".toList ++ proc ++ ": Rs. ".toList ++ natChars amt

def noNetMsg (loc : List Char) : List Char :=
  "No network coverage in ".toList ++ pyCapitalize loc

/-- The age branch of `_check_basic_eligibility` (lines 149-158): `some`
when the gate fires (method returns `False`), `none` when control falls
through.  There is no default range: when the `age limit` pattern is
absent the check is skipped. -/
def ageGate (q : SQuery) (ptext : List Char) (resp : Response) : Option Response :=
  if truthyOptInt q.age then
    match ageLimitSearch ptext with
    | some (lo, hi) =>
      if !(lo ≤ q.age.getD 0 && q.age.getD 0 ≤ hi) then
        some (appendJust resp (ageMsg (q.age.getD 0) lo hi))
      else none
    | none => none
  else none

def pyIntErr : List Char := "invalid int() conversion".toList

/-- The policy-duration branch of `_check_basic_eligibility`
(lines 161-171); `int(query.policy_duration.split()[0])` can raise, which
is the `.error` case. -/
def durGate (q : SQuery) (ptext : List Char) (resp : Response) :
    Except (List Char) (Option Response) :=
  if truthyOptStr q.policy_duration then
    match waitingPeriodSearch ptext with
    | some mm =>
      match pyFirstTokenInt (q.policy_duration.getD []) with
      | none => Except.error pyIntErr
      | some qm =>
        if qm < mm then Except.ok (some (appendJust resp (durMsg qm mm)))
        else Except.ok none
    | none => Except.ok none
  else Except.ok none

/-- `QueryHandler._check_basic_eligibility` (lines 142-173).  The Boolean
is the method's return value; the local `clauses` list of the source is
never read or written back, so it has no observable effect. -/
def checkBasicEligibility (q : SQuery) (ptext : List Char) (resp : Response) :
    Except (List Char) (Response × Bool) :=
  match ageGate q ptext resp with
  | some r => Except.ok (r, false)
  | none =>
    match durGate q ptext resp with
    | Except.error e => Except.error e
    | Except.ok (some r) => Except.ok (r, false)
    | Except.ok none => Except.ok (resp, true)

/-- `self.coverage_keywords` (lines 10-14). -/
def coverage_keywords : List (List Char × List (List Char)) :=
  [("knee".toList, ["knee".toList, "orthopedic".toList, "joint".toList]),
   ("cardiac".toList, ["cardiac".toList, "heart".toList, "bypass".toList]),
   ("eye".toList, ["eye".toList, "cataract".toList, "lasik".toList])]

/-- `self.coverage_keywords.get(procedure, [procedure])` (line 182). -/
def kwsFor (proc : List Char) : List (List Char) :=
  (coverage_keywords.lookup proc).getD [proc]

/-- One iteration of the finditer loop in `_check_procedure_coverage`
(lines 185-196): update decision/amount/clauses and append a justification
only when the amount strictly exceeds the current one. -/
def applyCoverageMatch (proc : List Char) (resp : Response) (amt : Nat) : Response :=
  if (amt : ℚ) > resp.amount then
    appendJust
      { resp with
        decision := approvedStr
        amount := (amt : ℚ)
        clauses_used := [covClauseMsg proc amt] }
      (covJustMsg proc amt)
  else resp

/-- `QueryHandler._check_procedure_coverage` (lines 175-196). -/
def checkProcedureCoverage (proc ptext : List Char) (resp : Response) : Response :=
  (coverageAmounts (kwsFor proc) ptext).foldl (applyCoverageMatch proc) resp

/-- `QueryHandler._check_location_coverage` (lines 198-211): when the
network pattern is absent, append a justification, and force
rejected/0 only if the decision currently is approved. -/
def checkLocationCoverage (loc ptext : List Char) (resp : Response) : Response :=
  if networkSearch loc ptext then resp
  else
    if (appendJust resp (noNetMsg loc)).decision = approvedStr then
      { appendJust resp (noNetMsg loc) with decision := rejectedStr, amount := 0 }
    else appendJust resp (noNetMsg loc)

def noMatchMsg : List Char := "No matching coverage found in policy documents".toList

/-- Final lines of `make_decision` (136-139): an empty justification list
is replaced by the plain string `noMatchMsg`, then `". ".join` is applied
to whatever the field holds — joining a list of strings, or the characters
of a string when the field is itself a string. -/
def finalize (r : Response) : Response :=
  let j := match r.justification with
    | JustVal.items [] => JustVal.text noMatchMsg
    | x => x
  { r with justification :=
      JustVal.text (match j with
        | JustVal.items l => joinDotSp l
        | JustVal.text s => joinDotSp (s.map (fun c => [c]))) }

/-- Step 2 of `make_decision` (lines 127-129): the procedure-specific
check runs only when `structured_query.procedure` is truthy. -/
def procedureStep (q : SQuery) (ptext : List Char) (r : Response) : Response :=
  if truthyOptStr q.procedure then
    checkProcedureCoverage (q.procedure.getD []) ptext r
  else r

/-- Step 3 of `make_decision` (lines 131-133): the location check runs
only when `structured_query.location` is truthy. -/
def locationStep (q : SQuery) (ptext : List Char) (r : Response) : Response :=
  if truthyOptStr q.location then
    checkLocationCoverage (q.location.getD []) ptext r
  else r

/-- The initial response dict of `make_decision` (lines 116-121). -/
def resp0 : Response := ⟨rejectedStr, 0, JustVal.items [], []⟩

/-- `QueryHandler.make_decision` (lines 107-140).  On the eligibility
early return the response is returned with its justification still a list;
`.error` models an uncaught exception from `int()`. -/
def makeDecision (q : SQuery) (chunks : List SearchResult) :
    Except (List Char) Response :=
  match checkBasicEligibility q (policyText chunks) resp0 with
  | Except.error e => Except.error e
  | Except.ok (r1, false) => Except.ok r1
  | Except.ok (r1, true) =>
    Except.ok (finalize (locationStep q (policyText chunks)
      (procedureStep q (policyText chunks) r1)))

/-! ## VectorStore (`vector_store.py`)

The Hugging Face embedding call and faiss are external collaborators:
the embedding is a function parameter returning `Except` (a non-200
response raises), L2 normalization is a function parameter (its numeric
content is irrelevant to the claims), and the flat inner-product index is
the stored list of vectors, searched per faiss's documented exact top-k
behaviour. -/

/-- The index state: the faiss `IndexFlatIP` contents plus the two Python
lists `self.documents` and `self.metadata`. -/
structure VState where
  vectors : List (List ℚ)
  documents : List (List Char)
  metadata : List Meta
deriving DecidableEq, Repr

/-- The list comprehension `[self.get_embedding(chunk) for chunk in
chunks]`: embeddings in order, stopping at the first raised error. -/
def mapEmbed (embed : List Char → Except (List Char) (List ℚ)) :
    List (List Char) → Except (List Char) (List (List ℚ))
  | [] => Except.ok []
  | c :: rest =>
    match embed c with
    | Except.error e => Except.error e
    | Except.ok v => (mapEmbed embed rest).map (fun vs => v :: vs)

/-- `VectorStore.add_documents` (lines 37-51).  All embeddings are computed
before any mutation; the `except` clause prints the error (the returned
`Option` message) and leaves every collection untouched. -/
def addDocuments (embed : List Char → Except (List Char) (List ℚ))
    (l2norm : List ℚ → List ℚ) (st : VState)
    (chunks : List (List Char)) (filename : List Char) :
    VState × Option (List Char) :=
  match mapEmbed embed chunks with
  | Except.error e => (st, some e)
  | Except.ok embs =>
    ({ vectors := st.vectors ++ embs.map l2norm,
       documents := st.documents ++ chunks,
       metadata := st.metadata ++
         (List.range chunks.length).map (fun i => ⟨filename, i⟩) }, none)

/-- Inner product of two stored vectors. -/
def ipScore (q v : List ℚ) : ℚ := (List.zipWith (fun a b => a * b) q v).sum

/-- Descending insertion by score; equal scores keep the smaller insertion
index first. -/
def insertRanked (p : ℚ × Nat) : List (ℚ × Nat) → List (ℚ × Nat)
  | [] => [p]
  | q :: rest =>
    if p.1 > q.1 || (p.1 = q.1 && p.2 < q.2) then p :: q :: rest
    else q :: insertRanked p rest

/-- The distance faiss reports for padded (absent) result slots. -/
def padScore : ℚ := -340282346638528859811704183484516925440

/-- faiss `IndexFlatIP.search` for one query vector, from faiss's
documented exact-search behaviour: the `min(k, ntotal)` highest inner
products in descending order, and when `k` exceeds `ntotal` the result
arrays are padded with label `-1` and a minimal distance. -/
def faissIndexSearch (rows : List (List ℚ)) (qv : List ℚ) (k : Nat) :
    List (ℚ × Int) :=
  let ranked := (rows.enum.map (fun iv => (ipScore qv iv.2, iv.1))).foldr insertRanked []
  let top := (ranked.take k).map (fun p => (p.1, (p.2 : Int)))
  top ++ List.replicate (k - top.length) (padScore, -1)

/-- The result-building loop of `search` (lines 65-72): the guard is
`idx < len(self.documents)` — note `-1` passes it — and Python indexing
resolves negative indices from the end.  A genuinely out-of-range index
would raise into the `except` clause, giving `none`. -/
def buildResults (docs : List (List Char)) (metas : List Meta) :
    List (ℚ × Int) → Option (List SearchResult)
  | [] => some []
  | p :: rest =>
    if p.2 < (docs.length : Int) then
      match pyGet docs p.2, pyGet metas p.2 with
      | some d, some m => (buildResults docs metas rest).map (fun rs => ⟨d, p.1, m⟩ :: rs)
      | _, _ => none
    else buildResults docs metas rest

/-- `VectorStore.search` (lines 53-78): empty documents short-circuit to
`[]`; any raised error (embedding call or index lookup) is caught and
also yields `[]`. -/
def search (embed : List Char → Except (List Char) (List ℚ))
    (l2norm : List ℚ → List ℚ) (st : VState) (q : List Char) (k : Nat) :
    List SearchResult :=
  if st.documents.isEmpty then []
  else
    match embed q with
    | Except.error _ => []
    | Except.ok qe =>
      match buildResults st.documents st.metadata
          (faissIndexSearch st.vectors (l2norm qe) k) with
      | some rs => rs
      | none => []

/-- The pickled record blob written by `save_index` (lines 83-88). -/
structure PickleData where
  documents : List (List Char)
  metadata : List Meta
deriving DecidableEq, Repr

def saveData (st : VState) : PickleData := ⟨st.documents, st.metadata⟩

/-- `VectorStore.load_index` (lines 93-103).  `filesPresent` is the
`os.path.exists` conjunction; `pkl` is the result of unpickling the record
blob; `bin` of `faiss.read_index`.  The source assigns `self.documents`
and `self.metadata` before reading the faiss index, so a failing
`read_index` (the `.error` case, caught by the `except`) leaves the new
documents with the old vectors. -/
def loadIndex (filesPresent : Bool) (pkl : Except (List Char) PickleData)
    (bin : Except (List Char) (List (List ℚ))) (st : VState) : VState :=
  if filesPresent then
    match pkl with
    | Except.error _ => st
    | Except.ok data =>
      match bin with
      | Except.error _ => { st with documents := data.documents, metadata := data.metadata }
      | Except.ok vecs => { vectors := vecs, documents := data.documents, metadata := data.metadata }
  else st

/-! ## DocumentProcessor (`document_processor.py`)

`process_document` extracts text from the file (an external collaborator)
and then runs `_clean_text` followed by `_split_into_sections`; the claims
concern this chunking pipeline on the extracted text. -/

def chunkSize : Nat := 1000
def minSectionLength : Nat := 50

/-- `re.sub(r'\s+', ' ', text)`: collapse every whitespace run to one
space; `prevWs` tracks whether the previous character was whitespace. -/
def collapseAux (prevWs : Bool) : List Char → List Char
  | [] => []
  | c :: rest =>
    if isWs c then (if prevWs then [] else [' ']) ++ collapseAux true rest
    else c :: collapseAux false rest

def collapseWs (cs : List Char) : List Char := collapseAux false cs

def sectionLit : List Char := "SECTION ".toList

/-- Match of `SECTION\s+([A-Z])\)` immediately after a consumed newline,
returning the captured letter and the rest of the input. -/
def hdrMatch (cs : List Char) : Option (Char × List Char) :=
  if ("SECTION".toList).isPrefixOf cs then
    let r1 := cs.drop 7
    if (r1.takeWhile isWs).isEmpty then none
    else
      match r1.dropWhile isWs with
      | u :: ')' :: r3 => if isUpperAZ u then some (u, r3) else none
      | _ => none
  else none

/-- `re.sub(r'\nSECTION\s+([A-Z])\)', r'\nSECTION \1) ', text)`: scanning
resumes after each replacement.  A fuel argument (one unit per consumed
input character; a replacement consumes at least as many) keeps the
recursion structural; `stdSectionHeaders` supplies adequate fuel. -/
def stdHeadersAux : Nat → List Char → List Char
  | 0, cs => cs
  | _ + 1, [] => []
  | f + 1, c :: rest =>
    if c = '\n' then
      match hdrMatch rest with
      | some (u, r3) =>
        ('\n' :: sectionLit ++ u :: ") ".toList) ++ stdHeadersAux f r3
      | none => c :: stdHeadersAux f rest
    else c :: stdHeadersAux f rest

def stdSectionHeaders (cs : List Char) : List Char := stdHeadersAux cs.length cs

/-- `DocumentProcessor._clean_text` (lines 44-50): collapse whitespace,
standardize section headers, strip. -/
def cleanText (cs : List Char) : List Char :=
  trim (stdSectionHeaders (collapseWs cs))

/-- Match of `SECTION [A-Z]\)[^\n]*` after a consumed newline, returning
the matched characters (after the newline) and the rest. -/
def secHdrMatch (cs : List Char) : Option (List Char × List Char) :=
  if sectionLit.isPrefixOf cs then
    match cs.drop sectionLit.length with
    | u :: ')' :: r2 =>
      if isUpperAZ u then
        some (sectionLit ++ u :: ')' :: r2.takeWhile (fun c => !(c = '\n')),
          r2.dropWhile (fun c => !(c = '\n')))
      else none
    | _ => none
  else none

/-- `re.split(r'(\nSECTION [A-Z]\)[^\n]*)', text)`: pieces and captured
separators interleaved; `acc` accumulates the current piece reversed, and
the fuel is again one unit per consumed character. -/
def sectionSplitAux : Nat → List Char → List Char → List (List Char)
  | 0, acc, cs => [acc.reverse ++ cs]
  | _ + 1, acc, [] => [acc.reverse]
  | f + 1, acc, c :: rest =>
    if c = '\n' then
      match secHdrMatch rest with
      | some (hdr, rest2) =>
        acc.reverse :: ('\n' :: hdr) :: sectionSplitAux f [] rest2
      | none => sectionSplitAux f (c :: acc) rest
    else sectionSplitAux f (c :: acc) rest

def sectionSplit (cs : List Char) : List (List Char) :=
  sectionSplitAux cs.length [] cs

/-- `re.match(r'\nSECTION [A-Z]\)', part)`: anchored at the start. -/
def startsWithSecHdr (p : List Char) : Bool :=
  match p with
  | '\n' :: rest =>
    (sectionLit.isPrefixOf rest) &&
      (match rest.drop sectionLit.length with
       | u :: ')' :: _ => isUpperAZ u
       | _ => false)
  | _ => false

/-- The header-combination loop of `_split_into_sections` (lines 58-70):
separator parts open a new section, other parts are appended, each with a
trailing space; an empty `current_section` is never pushed. -/
def combineSections : List (List Char) → List Char → List (List Char)
  | [], cur => if cur.isEmpty then [] else [cur]
  | p :: rest, cur =>
    if startsWithSecHdr p then
      (if cur.isEmpty then [] else [cur]) ++ combineSections rest (p ++ [' '])
    else combineSections rest (cur ++ p ++ [' '])

/-- First occurrence of `\nSECTION [A-Z]\)[^\n]*` inside a section
(line 78). -/
def findSecHdr : List Char → Option (List Char)
  | [] => none
  | c :: rest =>
    if c = '\n' then
      match secHdrMatch rest with
      | some (hdr, _) => some ('\n' :: hdr)
      | none => findSecHdr rest
    else findSecHdr rest

def pcHeader : List Char := "Policy Content".toList

def sectionHeaderOf (s : List Char) : List Char :=
  match findSecHdr s with
  | some h => h
  | none => pcHeader

/-- The sentence-boundary condition of
`re.split(r'(?<!\w\.\w.)(?<![A-Z][a-z]\.)(?<=\.|\?)\s', section)` at a
whitespace character, judged from the reversed prefix before it:
one char back must be `.` or `?`; the four chars back must not be
word, dot, word, anything; the three chars back must not be
upper, lower, dot. -/
def sentBoundary (prev : List Char) : Bool :=
  (match prev with
   | p1 :: _ => p1 = '.' || p1 = '?'
   | [] => false) &&
  !(match prev with
    | _ :: p2 :: p3 :: p4 :: _ => isWordChar p4 && p3 = '.' && isWordChar p2
    | _ => false) &&
  !(match prev with
    | p1 :: p2 :: p3 :: _ => isUpperAZ p3 && (('a' ≤ p2) && (p2 ≤ 'z')) && p1 = '.'
    | _ => false)

/-- The sentence split: scan left to right; each qualifying whitespace
character is removed and ends the current piece.  `prev` is the reversed
prefix of consumed characters, `acc` the current piece reversed. -/
def sentSplitAux (prev acc : List Char) : List Char → List (List Char)
  | [] => [acc.reverse]
  | c :: rest =>
    if isWs c && sentBoundary prev then
      acc.reverse :: sentSplitAux (c :: prev) [] rest
    else sentSplitAux (c :: prev) (c :: acc) rest

def sentSplit (s : List Char) : List (List Char) := sentSplitAux [] [] s

/-- The greedy packing loop of `_split_into_sections` (lines 84-94):
sentences are appended (plus a space) to `cur` while the length test
holds; on overflow the stripped buffer is emitted (when non-empty) with
the header prefix, and the buffer restarts from the offending sentence. -/
def packChunks (hdr : List Char) : List (List Char) → List Char → List (List Char)
  | [], cur =>
    if (trim cur).isEmpty then [] else [hdr ++ '\n' :: trim cur]
  | s :: rest, cur =>
    if cur.length + s.length < chunkSize then packChunks hdr rest (cur ++ s ++ [' '])
    else
      (if (trim cur).isEmpty then [] else [hdr ++ '\n' :: trim cur]) ++
        packChunks hdr rest (s ++ [' '])

/-- Chunks of one combined section (lines 74-94): sections shorter than
`min_section_length` are skipped entirely. -/
def sectionChunks (sec : List Char) : List (List Char) :=
  if sec.length < minSectionLength then []
  else packChunks (sectionHeaderOf sec) (sentSplit sec) []

/-- `DocumentProcessor._split_into_sections` (lines 52-96). -/
def splitIntoSections (text : List Char) : List (List Char) :=
  ((combineSections (sectionSplit text) []).map sectionChunks).flatten

/-- The chunking pipeline of `process_document` (lines 29-32): clean the
extracted text, then split into sections and chunks. -/
def processChunks (raw : List Char) : List (List Char) :=
  splitIntoSections (cleanText raw)

/-! ## Claim C9: gender extraction precedence -/

def q46mWoman : List Char := "46m woman".toList

/-- C9 counterexample: the query text `46m woman` contains the male
shorthand `46m` and the conflicting explicit word `woman`, yet
`_extract_gender` returns `female` — the female alternation (words and
shorthand together) is tested before the male one, so the shorthand does
not take precedence over explicit words. -/
theorem gender_shorthand_loses_cex :
    shorthandOcc 'm' q46mWoman = true ∧ wordOcc wWoman q46mWoman = true ∧
    extractGender q46mWoman = some ("female".toList) ∧
    extractGender q46mWoman ≠ some ("male".toList) := by
  refine ⟨by decide, by decide, by decide, by decide⟩

/-- C9 amended: the two `re.search` calls are ordered female-first, and
each pattern mixes words and shorthand in one alternation; hence any query
matching a female indicator — in particular the explicit word `woman` —
parses as `female`, even when a male shorthand `<N>m` is also present.
The numeric shorthand therefore wins against conflicting explicit words
only when the shorthand itself is female. -/
theorem gender_female_alternation_first (q : List Char)
    (_h1 : shorthandOcc 'm' q = true) (h2 : wordOcc wWoman q = true) :
    extractGender q = some ("female".toList) := by
  have hf : femaleRe q = true := by
    unfold femaleRe
    rw [h2]
    simp
  unfold extractGender
  rw [hf]
  simp

/-- C9 witness: the amended theorem applied at the concrete query
`46m woman`. -/
theorem gender_female_alternation_first_witness :
    shorthandOcc 'm' q46mWoman = true ∧ wordOcc wWoman q46mWoman = true ∧
    extractGender q46mWoman = some ("female".toList) :=
  ⟨by decide, by decide,
    gender_female_alternation_first q46mWoman (by decide) (by decide)⟩

/-! ## Decision-engine invariants -/

theorem appendJust_decision (r : Response) (s : List Char) :
    (appendJust r s).decision = r.decision := rfl

theorem appendJust_amount (r : Response) (s : List Char) :
    (appendJust r s).amount = r.amount := rfl

theorem appendJust_clauses (r : Response) (s : List Char) :
    (appendJust r s).clauses_used = r.clauses_used := rfl

/-- The eligibility checks only append justifications: decision, amount
and clauses are unchanged in both the pass and the gate-fired outcome. -/
theorem elig_preserves {q : SQuery} {p : List Char} {r r' : Response} {b : Bool}
    (h : checkBasicEligibility q p r = Except.ok (r', b)) :
    r'.decision = r.decision ∧ r'.amount = r.amount ∧
      r'.clauses_used = r.clauses_used := by
  unfold checkBasicEligibility at h
  cases hag : ageGate q p r with
  | some ra =>
    rw [hag] at h
    cases h
    unfold ageGate at hag
    split at hag
    · split at hag
      · split at hag
        · cases hag; exact ⟨rfl, rfl, rfl⟩
        · cases hag
      · cases hag
    · cases hag
  | none =>
    rw [hag] at h
    cases hdg : durGate q p r with
    | error e => rw [hdg] at h; cases h
    | ok o =>
      rw [hdg] at h
      cases o with
      | none => cases h; exact ⟨rfl, rfl, rfl⟩
      | some rd =>
        cases h
        unfold durGate at hdg
        split at hdg
        · split at hdg
          · split at hdg
            · cases hdg
            · split at hdg
              · cases hdg; exact ⟨rfl, rfl, rfl⟩
              · cases hdg
          · cases hdg
        · cases hdg

/-- Decision values reachable by the engine. -/
def decOk (r : Response) : Prop :=
  r.decision = rejectedStr ∨ r.decision = approvedStr

/-- A nonzero amount is only ever set together with an approval. -/
def amtOk (r : Response) : Prop :=
  r.amount ≠ 0 → r.decision = approvedStr

theorem applyCoverageMatch_inv {proc : List Char} {r : Response} {amt : Nat}
    (h : decOk r) (h2 : amtOk r) :
    decOk (applyCoverageMatch proc r amt) ∧ amtOk (applyCoverageMatch proc r amt) := by
  unfold applyCoverageMatch
  split
  · exact ⟨Or.inr rfl, fun _ => rfl⟩
  · exact ⟨h, h2⟩

theorem foldl_coverage_inv {proc : List Char} :
    ∀ (amts : List Nat) (r : Response), decOk r → amtOk r →
      decOk (amts.foldl (applyCoverageMatch proc) r) ∧
        amtOk (amts.foldl (applyCoverageMatch proc) r) := by
  intro amts
  induction amts with
  | nil => intro r h1 h2; exact ⟨h1, h2⟩
  | cons a rest ih =>
    intro r h1 h2
    have step := @applyCoverageMatch_inv proc r a h1 h2
    exact ih _ step.1 step.2

/-- When the network pattern is absent from the policy text, the location
check leaves any response satisfying the two invariants rejected with a
zero amount. -/
theorem location_veto {loc ptext : List Char} {r : Response}
    (hn : networkSearch loc ptext = false) (h1 : decOk r) (h2 : amtOk r) :
    (checkLocationCoverage loc ptext r).decision = rejectedStr ∧
      (checkLocationCoverage loc ptext r).amount = 0 := by
  unfold checkLocationCoverage
  rw [hn]
  simp only [Bool.false_eq_true, if_false]
  split
  · exact ⟨rfl, rfl⟩
  · rename_i hne
    have hd : r.decision = rejectedStr := by
      rcases h1 with hd | hd
      · exact hd
      · exact absurd hd hne
    have ha : r.amount = 0 := by
      by_contra hz
      exact hne (h2 hz)
    exact ⟨hd, ha⟩

theorem finalize_decision (r : Response) : (finalize r).decision = r.decision := rfl

theorem finalize_amount (r : Response) : (finalize r).amount = r.amount := rfl

theorem procedureStep_inv {q : SQuery} {ptext : List Char} {r : Response}
    (h1 : decOk r) (h2 : amtOk r) :
    decOk (procedureStep q ptext r) ∧ amtOk (procedureStep q ptext r) := by
  unfold procedureStep
  split
  · exact foldl_coverage_inv _ _ h1 h2
  · exact ⟨h1, h2⟩

/-! ## Claim C2: location is a veto, never an additive condition -/

/-- C2: for every structured query whose location field is set
(Python-truthy) and every chunk sequence whose concatenated text lacks the
`network (?:hospitals|providers).*?<location>` pattern, any decision record
returned by `make_decision` has decision `rejected` and amount 0 — even
when the coverage step had set approved with a positive amount, since the
location check runs afterwards and forces the rejection. -/
theorem location_veto_in_decision (q : SQuery) (chunks : List SearchResult)
    (loc : List Char) (r : Response)
    (hloc : q.location = some loc) (hne : loc ≠ [])
    (hn : networkSearch loc (policyText chunks) = false)
    (hok : makeDecision q chunks = Except.ok r) :
    r.decision = rejectedStr ∧ r.amount = 0 := by
  unfold makeDecision at hok
  cases helig : checkBasicEligibility q (policyText chunks) resp0 with
  | error e => rw [helig] at hok; simp at hok
  | ok rb =>
    rw [helig] at hok
    obtain ⟨r1, b⟩ := rb
    have hpres := elig_preserves helig
    cases b with
    | false =>
      simp only at hok
      have hr : r1 = r := Except.ok.inj hok
      subst hr
      exact ⟨hpres.1, hpres.2.1⟩
    | true =>
      simp only at hok
      have hr : finalize (locationStep q (policyText chunks)
          (procedureStep q (policyText chunks) r1)) = r := Except.ok.inj hok
      subst hr
      have h1 : decOk r1 := Or.inl hpres.1
      have h2 : amtOk r1 := fun hnz => absurd hpres.2.1 (by simp_all [resp0])
      have hinv := @procedureStep_inv q (policyText chunks) r1 h1 h2
      have htru : truthyOptStr q.location = true := by
        rw [hloc]
        unfold truthyOptStr
        simpa using hne
      rw [finalize_decision, finalize_amount]
      unfold locationStep
      rw [htru, if_pos rfl, hloc]
      exact location_veto (by simpa using hn) hinv.1 hinv.2

def qC2 : SQuery := { procedure := some ("knee".toList), location := some ("chennai".toList) }
def ckC2 : SearchResult := ⟨"knee surgery covered up to 500".toList, 0, ⟨"policy.txt".toList, 0⟩⟩
def rC2 : Response :=
  ⟨rejectedStr, 0,
   JustVal.text ("Knee covered up to Rs. 500. No network coverage in Chennai".toList),
   [("Coverage for knee: Rs. 500".toList)]⟩

/-- C2 witness: the concrete query for knee surgery in Chennai against a
chunk that matches the procedure but has no network clause; the veto
forces rejected/0 even though the coverage step had approved 500. -/
theorem location_veto_in_decision_witness :
    qC2.location = some ("chennai".toList) ∧
    networkSearch ("chennai".toList) (policyText [ckC2]) = false ∧
    makeDecision qC2 [ckC2] = Except.ok rC2 ∧
    rC2.decision = rejectedStr ∧ rC2.amount = 0 := by
  refine ⟨rfl, by decide, by decide, ?_, ?_⟩
  · exact (location_veto_in_decision qC2 [ckC2] ("chennai".toList) rC2 rfl
      (by decide) (by decide) (by decide)).1
  · exact (location_veto_in_decision qC2 [ckC2] ("chennai".toList) rC2 rfl
      (by decide) (by decide) (by decide)).2

/-! ## Claim C1: the age-15 eligibility gate -/

def qAge15 : SQuery := { age := some 15, procedure := some ("knee".toList) }
def ckKnee : SearchResult :=
  ⟨"knee surgery covered up to 500".toList, 0, ⟨"policy.txt".toList, 0⟩⟩

/-- C1 counterexample: with age 15 and a retrieved chunk that matches a
knee-coverage clause but contains no `age limit` pattern, `make_decision`
returns `approved` — not `rejected` as the claim requires for every chunk
sequence.  The code has no default age range: when the pattern is absent
the age check is skipped entirely. -/
theorem age15_not_always_rejected_cex :
    qAge15.age = some 15 ∧
    (makeDecision qAge15 [ckKnee]).map Response.decision = Except.ok approvedStr ∧
    (makeDecision qAge15 [ckKnee]).map Response.decision ≠ Except.ok rejectedStr := by
  refine ⟨rfl, by decide, by decide⟩

/-- C1 amended: for a structured query with age 15 the eligibility gate
fires — rejecting before the coverage evaluation, with decision `rejected`
and amount 0 — exactly when the retrieved text matches the
`age limit.*?(\d+)[^\d]+(\d+)` pattern with bounds excluding 15; when the
pattern is absent there is no fixed default range and the gate does not
fire, so the decision may be `approved`. -/
theorem age15_gate_fires_on_bounds (q : SQuery) (chunks : List SearchResult)
    (lo hi : Int) (hage : q.age = some 15)
    (hfound : ageLimitSearch (policyText chunks) = some (lo, hi))
    (hout : ¬(lo ≤ 15 ∧ (15:Int) ≤ hi)) :
    (makeDecision q chunks).map Response.decision = Except.ok rejectedStr ∧
      (makeDecision q chunks).map Response.amount = Except.ok 0 := by
  have hgate : ageGate q (policyText chunks) resp0 =
      some (appendJust resp0 (ageMsg 15 lo hi)) := by
    unfold ageGate
    rw [hage]
    have : truthyOptInt (some 15) = true := by decide
    rw [this, if_pos rfl, hfound]
    have hcond : (!(lo ≤ (15:Int) && (15:Int) ≤ hi)) = true := by
      simp only [Bool.not_eq_true', Bool.and_eq_false_iff]
      rcases (Decidable.not_and_iff_or_not ..).mp hout with h | h
      · left; simpa using h
      · right; simpa using h
    simp only [Option.getD_some]
    rw [if_pos hcond]
  have helig : checkBasicEligibility q (policyText chunks) resp0 =
      Except.ok (appendJust resp0 (ageMsg 15 lo hi), false) := by
    unfold checkBasicEligibility
    rw [hgate]
  unfold makeDecision
  rw [helig]
  exact ⟨rfl, rfl⟩

def ckAgeLim : SearchResult :=
  ⟨"age limit 18 to 65 applies".toList, 0, ⟨"policy.txt".toList, 0⟩⟩
def qAge15b : SQuery := { age := some 15 }

/-- C1 witness: the amended theorem applied where the retrieved text does
state an age limit of 18 to 65. -/
theorem age15_gate_fires_on_bounds_witness :
    qAge15b.age = some 15 ∧
    ageLimitSearch (policyText [ckAgeLim]) = some (18, 65) ∧
    (makeDecision qAge15b [ckAgeLim]).map Response.decision = Except.ok rejectedStr ∧
    (makeDecision qAge15b [ckAgeLim]).map Response.amount = Except.ok 0 := by
  have h := age15_gate_fires_on_bounds qAge15b [ckAgeLim] 18 65 rfl (by decide) (by decide)
  exact ⟨rfl, by decide, h.1, h.2⟩

/-! ## Claim C4: decision on an empty chunk sequence -/

/-- The justification actually produced for an empty justification list:
`". ".join` applied to the fallback message, which is a plain string, so
the join runs over its characters. -/
def noMatchCharJoin : List Char := joinDotSp (noMatchMsg.map (fun c => [c]))

theorem policyText_nil : policyText [] = [] := rfl

theorem ageLimitSearch_nil : ageLimitSearch [] = none := rfl

theorem waitingPeriodSearch_nil : waitingPeriodSearch [] = none := rfl

theorem coverageAmounts_nil (kws : List (List Char)) : coverageAmounts kws [] = [] := rfl

/-- C4 amended: for every structured query, `make_decision` on an empty
chunk sequence returns decision `rejected`, amount 0 and empty
`clauses_used`; when the location field is not set the justification is
`". ".join` of the string `No matching coverage found in policy documents`
— i.e. that message with `. ` between every two characters, not the
claimed `no relevant policy information found`, which appears nowhere in
the code. -/
theorem empty_chunks_rejected (q : SQuery)
    (hloc : truthyOptStr q.location = false) :
    makeDecision q [] = Except.ok ⟨rejectedStr, 0, JustVal.text noMatchCharJoin, []⟩ := by
  have hgate : ageGate q (policyText []) resp0 = none := by
    unfold ageGate
    rw [policyText_nil, ageLimitSearch_nil]
    split <;> rfl
  have hdur : durGate q (policyText []) resp0 = Except.ok none := by
    unfold durGate
    rw [policyText_nil, waitingPeriodSearch_nil]
    split <;> rfl
  have helig : checkBasicEligibility q (policyText []) resp0 =
      Except.ok (resp0, true) := by
    unfold checkBasicEligibility
    rw [hgate, hdur]
  have hproc : procedureStep q (policyText []) resp0 = resp0 := by
    unfold procedureStep
    split
    · unfold checkProcedureCoverage
      rw [policyText_nil, coverageAmounts_nil]
      rfl
    · rfl
  unfold makeDecision
  rw [helig]
  simp only
  rw [hproc]
  unfold locationStep
  rw [hloc]
  rfl

def qPlain : SQuery := {}

set_option maxRecDepth 8000 in
/-- C4 counterexample: for the all-unset query and `chunks = []` the
returned record is rejected with amount 0 and no clauses, but its
justification is the character-joined fallback message, not the claimed
string `no relevant policy information found`. -/
theorem empty_chunks_record_cex :
    makeDecision qPlain [] =
      Except.ok ⟨rejectedStr, 0, JustVal.text noMatchCharJoin, []⟩ ∧
    makeDecision qPlain [] ≠
      Except.ok ⟨rejectedStr, 0,
        JustVal.text ("no relevant policy information found".toList), []⟩ := by
  exact ⟨by decide, by decide⟩

def qC4w : SQuery :=
  { age := some 30, procedure := some ("knee".toList),
    policy_duration := some ("12 months".toList) }

/-- C4 witness: the amended theorem applied to a query with age,
procedure and duration set but no location. -/
theorem empty_chunks_rejected_witness :
    truthyOptStr qC4w.location = false ∧
    makeDecision qC4w [] =
      Except.ok ⟨rejectedStr, 0, JustVal.text noMatchCharJoin, []⟩ :=
  ⟨rfl, empty_chunks_rejected qC4w rfl⟩

/-! ## Claim C3: search result count -/

def stOne : VState :=
  ⟨[[1, 0]], [("the only chunk".toList)], [⟨"policy.txt".toList, 0⟩]⟩
def embedConst : List Char → Except (List Char) (List ℚ) := fun _ => Except.ok [1, 0]
def idNorm : List ℚ → List ℚ := fun v => v

/-- C3: on an index holding one entry, `search` with `top_k = 5` returns
five results, not `min(5, 1) = 1`: faiss pads the missing four slots with
label `-1`, the guard `idx < len(self.documents)` admits `-1`, and Python
negative indexing maps it to the last stored chunk, so the single chunk is
returned five times. -/
theorem search_returns_padded_results :
    (search embedConst idNorm stOne ("q".toList) 5).length = 5 ∧
    (search embedConst idNorm stOne ("q".toList) 5).map SearchResult.text =
      List.replicate 5 ("the only chunk".toList) ∧
    search embedConst idNorm ⟨[], [], []⟩ ("q".toList) 5 = [] := by
  refine ⟨by decide, by decide, by decide⟩

/-! ## Claim C6: add is atomic per batch -/

theorem mapEmbed_fails_of_mem {embed : List Char → Except (List Char) (List ℚ)}
    {chunks : List (List Char)} {c : List Char} {e : List Char}
    (hm : c ∈ chunks) (he : embed c = Except.error e) :
    ∃ e2, mapEmbed embed chunks = Except.error e2 := by
  induction chunks with
  | nil => cases hm
  | cons a rest ih =>
    unfold mapEmbed
    cases hma : embed a with
    | error ea => exact ⟨ea, rfl⟩
    | ok v =>
      rcases List.mem_cons.mp hm with hh | hh
      · subst hh; rw [hma] at he; cases he
      · obtain ⟨e2, h2⟩ := ih hh
        rw [h2]
        exact ⟨e2, rfl⟩

/-- C6: if embedding any chunk of the batch fails, `add_documents` leaves
the vectors, documents and metadata collections exactly as they were (all
embeddings are computed before any mutation) and reports the failure (the
printed error of the `except` clause). -/
theorem add_documents_atomic_on_failure
    (embed : List Char → Except (List Char) (List ℚ))
    (l2norm : List ℚ → List ℚ) (st : VState)
    (chunks : List (List Char)) (filename : List Char)
    (hfail : ∃ c ∈ chunks, ∃ e, embed c = Except.error e) :
    (addDocuments embed l2norm st chunks filename).1 = st ∧
      (addDocuments embed l2norm st chunks filename).2.isSome = true := by
  obtain ⟨c, hm, e, he⟩ := hfail
  obtain ⟨e2, h2⟩ := mapEmbed_fails_of_mem hm he
  unfold addDocuments
  rw [h2]
  exact ⟨rfl, rfl⟩

def embedDown : List Char → Except (List Char) (List ℚ) :=
  fun _ => Except.error ("Hugging Face API error: 503".toList)

/-- C6 witness: the atomicity theorem applied to a one-chunk batch whose
embedding call fails. -/
theorem add_documents_atomic_on_failure_witness :
    (addDocuments embedDown idNorm stOne [("new chunk".toList)] ("f.txt".toList)).1 = stOne ∧
    (addDocuments embedDown idNorm stOne [("new chunk".toList)] ("f.txt".toList)).2.isSome = true :=
  add_documents_atomic_on_failure embedDown idNorm stOne [("new chunk".toList)]
    ("f.txt".toList)
    ⟨("new chunk".toList), by decide, ("Hugging Face API error: 503".toList), rfl⟩

/-! ## Claim C7: chunk, vector and metadata counts stay equal -/

def stTwo : VState :=
  ⟨[[1, 0], [0, 1]],
   [("chunk a".toList), ("chunk b".toList)],
   [⟨"policy.txt".toList, 0⟩, ⟨"policy.txt".toList, 1⟩]⟩

/-- C7: `load_index` assigns documents and metadata from the pickle blob
before `faiss.read_index` runs; when reading the vector index fails, the
caught exception leaves the new one-chunk documents paired with the old
two-vector index — a reachable state with mismatched counts, instead of
treating the partial load as no persisted state. -/
theorem partial_load_breaks_counts :
    (loadIndex true (Except.ok ⟨[("persisted chunk".toList)], [⟨"p.txt".toList, 0⟩]⟩)
        (Except.error ("read_index failed".toList)) stTwo).documents.length = 1 ∧
    (loadIndex true (Except.ok ⟨[("persisted chunk".toList)], [⟨"p.txt".toList, 0⟩]⟩)
        (Except.error ("read_index failed".toList)) stTwo).vectors.length = 2 ∧
    (1 : Nat) ≠ 2 := by
  refine ⟨rfl, rfl, by decide⟩

/-! ## Claim C8: persist then restore is a round trip -/

/-- C8: restoring the two artifacts written by `save_index` (the pickled
documents/metadata record and the vector index) into any fresh store
reproduces the saved state exactly, so `search` on the restored store
agrees with `search` on the original for every query and `top_k`. -/
theorem save_load_round_trip (st fresh : VState)
    (embed : List Char → Except (List Char) (List ℚ))
    (l2norm : List ℚ → List ℚ) (q : List Char) (k : Nat) :
    loadIndex true (Except.ok (saveData st)) (Except.ok st.vectors) fresh = st ∧
    search embed l2norm
        (loadIndex true (Except.ok (saveData st)) (Except.ok st.vectors) fresh) q k =
      search embed l2norm st q k := by
  have h : loadIndex true (Except.ok (saveData st)) (Except.ok st.vectors) fresh = st := rfl
  exact ⟨h, by rw [h]⟩

/-! ## Chunker pipeline lemmas

After `_clean_text` collapses all whitespace to single spaces no newline
survives, so the section split always yields a single section and the
header is always the fallback `Policy Content`. -/

theorem collapse_no_newline (b : Bool) (cs : List Char) :
    '\n' ∉ collapseAux b cs := by
  induction cs generalizing b with
  | nil => simp [collapseAux]
  | cons c rest ih =>
    unfold collapseAux
    by_cases hws : isWs c
    · rw [if_pos hws]
      intro hmem
      rcases List.mem_append.mp hmem with h | h
      · cases b with
        | true => simp at h
        | false =>
          rw [if_neg (by simp)] at h
          have h2 := List.mem_singleton.mp h
          exact absurd h2 (by decide)
      · exact ih true h
    · rw [if_neg hws]
      intro hmem
      rcases List.mem_cons.mp hmem with h | h
      · subst h; exact hws (by decide)
      · exact ih false h

theorem stdHeadersAux_id (cs : List Char) :
    ∀ f, cs.length ≤ f → '\n' ∉ cs → stdHeadersAux f cs = cs := by
  induction cs with
  | nil =>
    intro f _ _
    cases f <;> rfl
  | cons c rest ih =>
    intro f hf hnl
    cases f with
    | zero => simp at hf
    | succ f2 =>
      have hc : ¬ c = '\n' := fun h => hnl (h ▸ List.mem_cons_self c rest)
      unfold stdHeadersAux
      rw [if_neg hc]
      have : stdHeadersAux f2 rest = rest := by
        refine ih f2 ?_ (fun h => hnl (List.mem_cons_of_mem c h))
        simpa using Nat.lt_succ_iff.mp (Nat.lt_of_lt_of_le (Nat.lt_succ_self _) hf)
      rw [this]

theorem mem_trim_sub {c : Char} {cs : List Char} (h : c ∈ trim cs) : c ∈ cs := by
  unfold trim at h
  rw [List.mem_reverse] at h
  have h2 := mem_of_mem_dropWhileL h
  rw [List.mem_reverse] at h2
  exact mem_of_mem_dropWhileL h2

theorem cleanText_no_newline (t : List Char) : '\n' ∉ cleanText t := by
  intro h
  have h2 := mem_trim_sub h
  have h3 : stdHeadersAux (collapseWs t).length (collapseWs t) = collapseWs t :=
    stdHeadersAux_id _ _ (Nat.le_refl _) (collapse_no_newline false t)
  unfold stdSectionHeaders at h2
  rw [h3] at h2
  exact collapse_no_newline false t h2

theorem sectionSplitAux_no_newline (cs : List Char) :
    ∀ f acc, '\n' ∉ cs → sectionSplitAux f acc cs = [acc.reverse ++ cs] := by
  induction cs with
  | nil =>
    intro f acc _
    cases f <;> simp [sectionSplitAux]
  | cons c rest ih =>
    intro f acc hnl
    have hc : ¬ c = '\n' := fun h => hnl (h ▸ List.mem_cons_self c rest)
    have hr : '\n' ∉ rest := fun h => hnl (List.mem_cons_of_mem c h)
    cases f with
    | zero => rfl
    | succ f2 =>
      unfold sectionSplitAux
      rw [if_neg hc, ih f2 (c :: acc) hr]
      simp

theorem startsWithSecHdr_false {p : List Char} (h : '\n' ∉ p) :
    startsWithSecHdr p = false := by
  cases p with
  | nil => rfl
  | cons c rest =>
    unfold startsWithSecHdr
    cases hc : c with
    | mk v hv =>
      by_cases he : c = '\n'
      · exact absurd (he ▸ List.mem_cons_self c rest) h
      · rw [← hc]
        split
        · rename_i heq
          exact absurd (by rw [heq]; exact List.mem_cons_self _ _) h
        · rfl

theorem findSecHdr_no_newline {s : List Char} (h : '\n' ∉ s) :
    findSecHdr s = none := by
  induction s with
  | nil => rfl
  | cons c rest ih =>
    have hc : ¬ c = '\n' := fun hh => h (hh ▸ List.mem_cons_self c rest)
    unfold findSecHdr
    rw [if_neg hc]
    exact ih (fun hh => h (List.mem_cons_of_mem c hh))

theorem sectionHeaderOf_no_newline {s : List Char} (h : '\n' ∉ s) :
    sectionHeaderOf s = pcHeader := by
  unfold sectionHeaderOf
  rw [findSecHdr_no_newline h]

/-- The whole pipeline on any raw text reduces to the single combined
section `cleanText t ++ " "`. -/
theorem processChunks_single_section (t : List Char) :
    processChunks t = sectionChunks (cleanText t ++ [' ']) := by
  unfold processChunks splitIntoSections sectionSplit
  rw [sectionSplitAux_no_newline (cleanText t) (cleanText t).length []
    (cleanText_no_newline t)]
  simp only [List.reverse_nil, List.nil_append]
  unfold combineSections
  rw [startsWithSecHdr_false (cleanText_no_newline t)]
  simp only [Bool.false_eq_true, if_false, List.nil_append]
  unfold combineSections
  have hne : (cleanText t ++ [' ']).isEmpty = false := by
    cases h : cleanText t ++ [' '] with
    | nil => exact absurd h (by simp)
    | cons a l => rfl
  rw [hne]
  simp

/-! ## Sentence groups underlying the chunks -/

/-- The packing buffer as a string: the sentences of the group, each
followed by the space that the loop appends. -/
def joinSp (g : List (List Char)) : List Char :=
  (g.map (fun s => s ++ [' '])).flatten

/-- A sentence (or chunk) with non-whitespace content. -/
def meaningful (s : List Char) : Bool := !(trim s).isEmpty

/-- The packing loop again, but tracking which sentences are in the
buffer instead of the buffer string; `packChunks` is its rendering
(`packGroups_render`). -/
def packGroups : List (List Char) → List (List Char) → List (List (List Char))
  | [], g => if (trim (joinSp g)).isEmpty then [] else [g]
  | s :: rest, g =>
    if (joinSp g).length + s.length < chunkSize then packGroups rest (g ++ [s])
    else
      (if (trim (joinSp g)).isEmpty then [] else [g]) ++ packGroups rest [s]

theorem joinSp_nil : joinSp [] = [] := rfl

theorem joinSp_append_one (g : List (List Char)) (s : List Char) :
    joinSp (g ++ [s]) = joinSp g ++ (s ++ [' ']) := by
  unfold joinSp
  rw [List.map_append, List.flatten_append]
  simp

theorem joinSp_single (s : List Char) : joinSp [s] = s ++ [' '] := by
  unfold joinSp
  simp

/-- Rendering of groups as chunk texts: `packChunks` started on the buffer
of a group list produces exactly the header-prefixed trimmed buffers of
`packGroups`. -/
theorem packGroups_render (hdr : List Char) :
    ∀ (sents : List (List Char)) (g : List (List Char)),
      packChunks hdr sents (joinSp g) =
        (packGroups sents g).map (fun g2 => hdr ++ '\n' :: trim (joinSp g2)) := by
  intro sents
  induction sents with
  | nil =>
    intro g
    unfold packChunks packGroups
    split
    · rfl
    · rfl
  | cons s rest ih =>
    intro g
    unfold packChunks packGroups
    split
    · rw [show joinSp g ++ s ++ [' '] = joinSp (g ++ [s]) by
        rw [joinSp_append_one, List.append_assoc]]
      exact ih (g ++ [s])
    · rw [← joinSp_single, ih [s], List.map_append]
      congr 1
      split
      · rfl
      · rfl

/-- Whitespace-only buffers come exactly from whitespace-only groups. -/
theorem joinSp_trim_nil {g : List (List Char)} (h : trim (joinSp g) = []) :
    ∀ s ∈ g, trim s = [] := by
  intro s hs
  rw [trim_eq_nil_iff] at h ⊢
  intro c hc
  refine h c ?_
  unfold joinSp
  rw [List.mem_flatten]
  exact ⟨s ++ [' '], List.mem_map_of_mem _ hs, List.mem_append_left _ hc⟩

theorem filter_meaningful_nil {g : List (List Char)}
    (h : ∀ s ∈ g, trim s = []) : g.filter meaningful = [] := by
  rw [List.filter_eq_nil_iff]
  intro s hs
  unfold meaningful
  rw [h s hs]
  simp

/-- No loss and no duplication: the groups emitted by the packing loop
concatenate back to the original sentence sequence, up to dropping
whitespace-only sentences that fell into discarded whitespace-only
buffers. -/
theorem packGroups_reconstruct :
    ∀ (sents g : List (List Char)),
      ((packGroups sents g).flatten).filter meaningful =
        (g ++ sents).filter meaningful := by
  intro sents
  induction sents with
  | nil =>
    intro g
    unfold packGroups
    by_cases hemp : ((trim (joinSp g)).isEmpty : Bool) = true
    · rw [if_pos hemp, List.append_nil]
      exact (filter_meaningful_nil (joinSp_trim_nil (by simpa using hemp))).symm
    · rw [if_neg hemp]
      simp
  | cons s rest ih =>
    intro g
    by_cases hlen : (joinSp g).length + s.length < chunkSize
    · unfold packGroups
      rw [if_pos hlen, ih (g ++ [s])]
      simp
    · unfold packGroups
      rw [if_neg hlen]
      by_cases hemp : ((trim (joinSp g)).isEmpty : Bool) = true
      · rw [if_pos hemp, List.nil_append, ih [s]]
        have hg : g.filter meaningful = [] :=
          filter_meaningful_nil (joinSp_trim_nil (by simpa using hemp))
        simp [List.filter_append, hg]
      · rw [if_neg hemp]
        rw [show (([g] ++ packGroups rest [s]).flatten) =
            g ++ (packGroups rest [s]).flatten by simp]
        rw [List.filter_append, ih [s]]
        simp [List.filter_append]

/-- The largest sentence length of a split, governing the slack of the
chunk-size bound. -/
def maxLenL (l : List (List Char)) : Nat :=
  l.foldr (fun s m => max s.length m) 0

theorem le_maxLenL {s : List Char} {l : List (List Char)} (h : s ∈ l) :
    s.length ≤ maxLenL l := by
  induction l with
  | nil => cases h
  | cons a rest ih =>
    rcases List.mem_cons.mp h with hh | hh
    · subst hh; exact Nat.le_max_left _ _
    · exact Nat.le_trans (ih hh) (Nat.le_max_right _ _)

/-- A nonempty trimmed string contains a non-whitespace character. -/
theorem trim_has_nonWs {x : List Char} (h : trim x ≠ []) :
    ∃ c ∈ trim x, ¬ isWs c := by
  have hyne : (x.dropWhile isWs).reverse.dropWhile isWs ≠ [] := by
    intro hnil
    apply h
    unfold trim
    rw [hnil]
    rfl
  have hlen : 0 < ((x.dropWhile isWs).reverse.dropWhile isWs).length :=
    List.length_pos.mpr hyne
  have hnot := List.dropWhile_get_zero_not (l := (x.dropWhile isWs).reverse)
    (p := isWs) hlen
  refine ⟨((x.dropWhile isWs).reverse.dropWhile isWs).get ⟨0, hlen⟩, ?_,
    by simpa using hnot⟩
  unfold trim
  rw [List.mem_reverse]
  exact List.get_mem _ _ _

/-- Every chunk emitted by the packing loop has non-whitespace content. -/
theorem packChunks_trim_ne (hdr : List Char) :
    ∀ (sents : List (List Char)) (cur : List Char),
      ∀ c ∈ packChunks hdr sents cur, trim c ≠ [] := by
  intro sents
  induction sents with
  | nil =>
    intro cur c hc
    unfold packChunks at hc
    split at hc
    · cases hc
    · rename_i hemp
      have hone : c = hdr ++ '\n' :: trim cur := by simpa using hc
      subst hone
      obtain ⟨ch, hch, hchw⟩ := trim_has_nonWs (by simpa using hemp)
      exact trim_ne_nil_of_mem_nonWs
        (List.mem_append_right _ (List.mem_cons_of_mem _ hch)) hchw
  | cons s rest ih =>
    intro cur c hc
    unfold packChunks at hc
    split at hc
    · exact ih _ c hc
    · rcases List.mem_append.mp hc with hL | hR
      · split at hL
        · cases hL
        · rename_i hemp
          have hone : c = hdr ++ '\n' :: trim cur := by simpa using hL
          subst hone
          obtain ⟨ch, hch, hchw⟩ := trim_has_nonWs (by simpa using hemp)
          exact trim_ne_nil_of_mem_nonWs
            (List.mem_append_right _ (List.mem_cons_of_mem _ hch)) hchw
      · exact ih _ c hR

/-- Size of every emitted chunk: the buffer never exceeds
`max chunkSize (M + 1)` where `M` bounds the sentence lengths, and each
chunk adds the header and the newline. -/
theorem packChunks_len_le (hdr : List Char) (M : Nat) :
    ∀ (sents : List (List Char)) (cur : List Char),
      (∀ s ∈ sents, s.length ≤ M) →
      cur.length ≤ max chunkSize (M + 1) →
      ∀ c ∈ packChunks hdr sents cur,
        c.length ≤ hdr.length + 1 + max chunkSize (M + 1) := by
  intro sents
  induction sents with
  | nil =>
    intro cur _ hcur c hc
    unfold packChunks at hc
    split at hc
    · cases hc
    · have hone : c = hdr ++ '\n' :: trim cur := by simpa using hc
      subst hone
      rw [List.length_append, List.length_cons]
      have := Nat.le_trans (trim_len_le cur) hcur
      omega
  | cons s rest ih =>
    intro cur hs hcur c hc
    unfold packChunks at hc
    split at hc
    · rename_i hlt
      refine ih _ (fun s2 h2 => hs s2 (List.mem_cons_of_mem s h2)) ?_ c hc
      rw [List.length_append, List.length_append, List.length_singleton]
      have : cur.length + s.length + 1 ≤ chunkSize := hlt
      omega
    · rcases List.mem_append.mp hc with hL | hR
      · split at hL
        · cases hL
        · have hone : c = hdr ++ '\n' :: trim cur := by simpa using hL
          subst hone
          rw [List.length_append, List.length_cons]
          have := Nat.le_trans (trim_len_le cur) hcur
          omega
      · refine ih _ (fun s2 h2 => hs s2 (List.mem_cons_of_mem s h2)) ?_ c hR
        rw [List.length_append, List.length_singleton]
        have hsM : s.length ≤ M := hs s (List.mem_cons_self s rest)
        omega

/-! ## Claim C5: chunker output properties -/

theorem sectionChunks_no_newline {sec : List Char} (h : '\n' ∉ sec) :
    sectionChunks sec =
      if sec.length < minSectionLength then []
      else packChunks pcHeader (sentSplit sec) [] := by
  unfold sectionChunks
  rw [sectionHeaderOf_no_newline h]

/-- The corrected chunker contract for a text whose (single) cleaned
section is long enough: chunks are exactly the rendered sentence groups of
the greedy packing; concatenating the groups reproduces the sentence
split up to whitespace-only sentences; every chunk has non-whitespace
content and is bounded by header + newline + max(chunk size, one
sentence + 1). -/
def chunkerSpecProp (t : List Char) : Prop :=
  processChunks t =
    (packGroups (sentSplit (cleanText t ++ [' '])) []).map
      (fun g => pcHeader ++ '\n' :: trim (joinSp g)) ∧
  ((packGroups (sentSplit (cleanText t ++ [' '])) []).flatten).filter meaningful =
    (sentSplit (cleanText t ++ [' '])).filter meaningful ∧
  ∀ c ∈ processChunks t, trim c ≠ [] ∧
    c.length ≤ pcHeader.length + 1 +
      max chunkSize (maxLenL (sentSplit (cleanText t ++ [' '])) + 1)

/-- C5 amended: for every input text whose cleaned section reaches
`min_section_length`, the chunker emits exactly the greedy packing of the
sentence split — every chunk non-empty after trimming and bounded by the
chunk size plus one-sentence slack (and the header prefix) — and the
sentence groups underlying the chunks reconstruct the original sentence
sequence with no loss and no duplication of any sentence with
non-whitespace content. -/
theorem chunker_reconstruction (t : List Char)
    (h : ¬ (cleanText t ++ [' ']).length < minSectionLength) :
    chunkerSpecProp t := by
  have hnl : '\n' ∉ cleanText t ++ [' '] := by
    intro hm
    rcases List.mem_append.mp hm with h1 | h1
    · exact cleanText_no_newline t h1
    · exact absurd (List.mem_singleton.mp h1) (by decide)
  have hsec : processChunks t =
      packChunks pcHeader (sentSplit (cleanText t ++ [' '])) [] := by
    rw [processChunks_single_section, sectionChunks_no_newline hnl, if_neg h]
  refine ⟨?_, ?_, ?_⟩
  · rw [hsec]
    exact packGroups_render pcHeader (sentSplit (cleanText t ++ [' '])) []
  · rw [packGroups_reconstruct (sentSplit (cleanText t ++ [' '])) []]
    simp
  · intro c hc
    rw [hsec] at hc
    refine ⟨packChunks_trim_ne pcHeader _ [] c hc, ?_⟩
    exact packChunks_len_le pcHeader (maxLenL (sentSplit (cleanText t ++ [' '])))
      _ [] (fun s hs => le_maxLenL hs) (by simp) c hc

def tShort : List Char := "Knee surgery is covered.".toList

/-- C5 counterexample: a 24-character text forms a section shorter than
`min_section_length`, which `_split_into_sections` drops entirely: no
chunk is emitted although the sentence split contains a sentence with
real content — the claimed lossless reconstruction fails. -/
theorem chunker_short_section_loss_cex :
    processChunks tShort = [] ∧
    (sentSplit (cleanText tShort ++ [' '])).filter meaningful ≠ [] := by
  exact ⟨by decide, by decide⟩

def tFull : List Char :=
  "The policy covers knee surgery fully. Claims require forms. End of document.".toList

/-- C5 witness: the amended contract applied to a 77-character text. -/
theorem chunker_reconstruction_witness :
    ¬ (cleanText tFull ++ [' ']).length < minSectionLength ∧ chunkerSpecProp tFull :=
  ⟨by decide, chunker_reconstruction tFull (by decide)⟩

/-! ## Claim C10: no cap on the number of chunks

The family `tBig n` — `n+1` sentences of 999 characters each, separated
by single spaces — is already in cleaned form, forms one long section,
and packs into exactly `n+1` chunks, so the chunk count is unbounded. -/

def uSent : List Char := List.replicate 998 'a' ++ ['?']

def blkRep : List Char := uSent ++ [' ']

def tBig (n : Nat) : List Char := (List.replicate n blkRep).flatten ++ uSent

theorem uSent_no_ws : ∀ c ∈ uSent, ¬ isWs c := by
  intro c hc
  rcases List.mem_append.mp hc with h | h
  · rw [List.eq_of_mem_replicate h]; decide
  · rw [List.mem_singleton.mp h]; decide

theorem uSent_len : uSent.length = 999 := by
  rw [uSent, List.length_append, List.length_replicate, List.length_singleton]

theorem uSent_ne_nil : uSent ≠ [] := by
  intro h
  have := congrArg List.length h
  rw [uSent_len] at this
  simp at this

theorem blkRep_len : blkRep.length = 1000 := by
  simp [blkRep, List.length_append, uSent_len]

theorem uSent_cons : uSent = 'a' :: (List.replicate 997 'a' ++ ['?']) := by
  rw [uSent, show (998 : Nat) = 997 + 1 from rfl, List.replicate_succ, List.cons_append]

theorem collapseAux_app_nonWs (v : List Char) (hv : ∀ c ∈ v, ¬ isWs c) :
    ∀ (b : Bool) (l : List Char), v ≠ [] →
      collapseAux b (v ++ l) = v ++ collapseAux false l := by
  induction v with
  | nil => intro b l h; exact absurd rfl h
  | cons x v2 ih =>
    intro b l _
    have hx : ¬ isWs x = true := hv x (List.mem_cons_self x v2)
    rw [List.cons_append]
    simp only [collapseAux]
    rw [if_neg hx]
    by_cases hv2 : v2 = []
    · subst hv2; rfl
    · rw [ih (fun c hc => hv c (List.mem_cons_of_mem x hc)) false l hv2, List.cons_append]

theorem collapse_tBig (n : Nat) :
    ∀ b, collapseAux b (tBig n) = tBig n := by
  induction n with
  | zero =>
    intro b
    unfold tBig
    simp only [List.replicate, List.flatten_nil, List.nil_append]
    have h := collapseAux_app_nonWs uSent uSent_no_ws b [] uSent_ne_nil
    rw [List.append_nil] at h
    rw [h]
    simp [collapseAux]
  | succ n ih =>
    intro b
    unfold tBig
    rw [List.replicate_succ, List.flatten_cons]
    have hshape : blkRep ++ ((List.replicate n blkRep).flatten ++ uSent) =
        uSent ++ (' ' :: ((List.replicate n blkRep).flatten ++ uSent)) := by
      unfold blkRep
      simp
    rw [List.append_assoc, hshape]
    rw [collapseAux_app_nonWs uSent uSent_no_ws b _ uSent_ne_nil]
    simp only [collapseAux]
    rw [if_pos (by decide)]
    simp only [Bool.false_eq_true, if_false]
    unfold tBig at ih
    rw [ih true]
    unfold blkRep
    simp

theorem mem_flatten_replicate {c : Char} {n : Nat} {x : List Char}
    (h : c ∈ (List.replicate n x).flatten) : c ∈ x := by
  induction n with
  | zero => simp [List.replicate] at h
  | succ n ih =>
    rw [List.replicate_succ, List.flatten_cons] at h
    rcases List.mem_append.mp h with h2 | h2
    · exact h2
    · exact ih h2

theorem tBig_no_newline (n : Nat) : '\n' ∉ tBig n := by
  intro h
  unfold tBig at h
  have hu : '\n' ∉ uSent := fun hh => absurd (uSent_no_ws '\n' hh) (by simp; decide)
  rcases List.mem_append.mp h with h2 | h2
  · have hb : '\n' ∈ blkRep := mem_flatten_replicate h2
    unfold blkRep at hb
    rcases List.mem_append.mp hb with h3 | h3
    · exact hu h3
    · exact absurd (List.mem_singleton.mp h3) (by decide)
  · exact hu h2

theorem tBig_zero : tBig 0 = uSent := rfl

theorem tBig_head (n : Nat) : ∃ rest, tBig n = 'a' :: rest := by
  cases n with
  | zero =>
    rw [tBig_zero, uSent_cons]
    exact ⟨_, rfl⟩
  | succ m =>
    unfold tBig
    rw [List.replicate_succ, List.flatten_cons]
    unfold blkRep
    rw [uSent_cons, List.cons_append, List.cons_append]
    exact ⟨_, rfl⟩

theorem tBig_rev_head (n : Nat) :
    ∃ rest, (tBig n).reverse = '?' :: rest := by
  unfold tBig uSent
  rw [List.reverse_append, List.reverse_append, List.reverse_singleton,
    List.singleton_append, List.cons_append]
  exact ⟨_, rfl⟩

theorem dropWhile_isWs_self {l : List Char} {c : Char} {r : List Char}
    (h : l = c :: r) (hc : ¬ isWs c = true) : l.dropWhile isWs = l := by
  subst h
  rw [List.dropWhile_cons_of_neg hc]

theorem trim_eq_self_of {l : List Char}
    (h1 : l.dropWhile isWs = l) (h2 : l.reverse.dropWhile isWs = l.reverse) :
    trim l = l := by
  unfold trim
  rw [h1, h2, List.reverse_reverse]

theorem trim_tBig (n : Nat) : trim (tBig n) = tBig n := by
  obtain ⟨r1, h1⟩ := tBig_head n
  obtain ⟨r2, h2⟩ := tBig_rev_head n
  exact trim_eq_self_of (dropWhile_isWs_self h1 (by decide))
    (dropWhile_isWs_self h2 (by decide))

theorem cleanText_tBig (n : Nat) : cleanText (tBig n) = tBig n := by
  unfold cleanText stdSectionHeaders collapseWs
  rw [collapse_tBig n false]
  rw [stdHeadersAux_id (tBig n) (tBig n).length (Nat.le_refl _) (tBig_no_newline n)]
  exact trim_tBig n

theorem flat_succ (n : Nat) :
    (List.replicate (n + 1) blkRep).flatten =
      (List.replicate n blkRep).flatten ++ blkRep := by
  rw [List.replicate_succ', List.flatten_append]
  simp

theorem tBig_sp (n : Nat) :
    tBig n ++ [' '] = (List.replicate (n + 1) blkRep).flatten := by
  rw [flat_succ]
  unfold tBig blkRep
  rw [List.append_assoc]

theorem repl_shift (m : Nat) (p : List Char) :
    List.replicate m 'a' ++ 'a' :: p = List.replicate (m + 1) 'a' ++ p := by
  rw [List.replicate_succ']
  simp

theorem sentSplit_run (m : Nat) : ∀ (prev acc l : List Char),
    sentSplitAux prev acc (List.replicate m 'a' ++ l) =
      sentSplitAux (List.replicate m 'a' ++ prev) (List.replicate m 'a' ++ acc) l := by
  induction m with
  | zero => intro prev acc l; simp [List.replicate]
  | succ m ih =>
    intro prev acc l
    rw [List.replicate_succ, List.cons_append]
    simp only [sentSplitAux]
    rw [show isWs 'a' = false from rfl]
    simp only [Bool.false_and, Bool.false_eq_true, if_false]
    rw [ih ('a' :: prev) ('a' :: acc) l, repl_shift, repl_shift,
      List.replicate_succ, List.cons_append, List.cons_append]

theorem rep998_expose (p : List Char) :
    List.replicate 998 'a' ++ p =
      'a' :: 'a' :: 'a' :: (List.replicate 995 'a' ++ p) := by
  rw [show (998 : Nat) = 997 + 1 from rfl, List.replicate_succ, List.cons_append,
    show (997 : Nat) = 996 + 1 from rfl, List.replicate_succ, List.cons_append,
    show (996 : Nat) = 995 + 1 from rfl, List.replicate_succ, List.cons_append]

theorem sentBoundary_after_u (p : List Char) :
    sentBoundary ('?' :: (List.replicate 998 'a' ++ p)) = true := by
  rw [rep998_expose]
  rfl

theorem uSent_rev : uSent.reverse = '?' :: List.replicate 998 'a' := by
  unfold uSent
  rw [List.reverse_append, List.reverse_replicate, List.reverse_singleton,
    List.singleton_append]

theorem sentSplit_blk (prev l : List Char) :
    sentSplitAux prev [] (blkRep ++ l) =
      uSent :: sentSplitAux (' ' :: '?' :: (List.replicate 998 'a' ++ prev)) [] l := by
  have hshape : blkRep ++ l = List.replicate 998 'a' ++ ('?' :: ' ' :: l) := by
    unfold blkRep uSent
    rw [List.append_assoc, List.append_assoc, List.singleton_append,
      List.singleton_append]
  rw [hshape, sentSplit_run 998 prev []]
  rw [List.append_nil]
  simp only [sentSplitAux]
  rw [show isWs '?' = false from rfl]
  simp only [Bool.false_and, Bool.false_eq_true, if_false]
  rw [show isWs ' ' = true from rfl, sentBoundary_after_u]
  simp only [Bool.and_self, if_true]
  rw [List.reverse_cons, List.reverse_replicate]
  rfl

theorem sentSplit_flat : ∀ (n : Nat) (prev : List Char),
    sentSplitAux prev [] ((List.replicate n blkRep).flatten) =
      List.replicate n uSent ++ [[]] := by
  intro n
  induction n with
  | zero => intro prev; rfl
  | succ n ih =>
    intro prev
    rw [List.replicate_succ, List.flatten_cons, sentSplit_blk, ih]
    rw [List.replicate_succ, List.cons_append]

theorem uSp_len : (uSent ++ [' ']).length = 1000 := by
  rw [List.length_append, uSent_len, List.length_singleton]

theorem trim_u_sp : trim (uSent ++ [' ']) = uSent := by
  unfold trim
  have h1 : (uSent ++ [' ']).dropWhile isWs = uSent ++ [' '] := by
    rw [uSent_cons, List.cons_append, List.dropWhile_cons_of_neg (by decide)]
  rw [h1, List.reverse_append, List.reverse_singleton, List.singleton_append]
  rw [List.dropWhile_cons_of_pos (by decide), uSent_rev,
    List.dropWhile_cons_of_neg (by decide), ← uSent_rev, List.reverse_reverse]

theorem uSent_isEmpty : uSent.isEmpty = false := by
  rw [uSent_cons]
  rfl

theorem packChunks_ucount (hdr : List Char) : ∀ n : Nat,
    (packChunks hdr (List.replicate n uSent ++ [[]]) (uSent ++ [' '])).length
      = n + 1 := by
  intro n
  induction n with
  | zero =>
    rw [List.replicate, List.nil_append]
    simp only [packChunks]
    rw [if_neg (by rw [uSp_len]; decide)]
    rw [trim_u_sp, uSent_isEmpty]
    simp only [Bool.false_eq_true, if_false, List.nil_append]
    rfl
  | succ n ih =>
    rw [List.replicate_succ, List.cons_append]
    simp only [packChunks]
    rw [if_neg (by rw [uSp_len, uSent_len]; decide)]
    rw [trim_u_sp, uSent_isEmpty]
    simp only [Bool.false_eq_true, if_false]
    rw [List.length_append, ih, List.length_singleton]
    omega

theorem packChunks_entry (hdr : List Char) (n : Nat) :
    packChunks hdr (List.replicate (n + 1) uSent ++ [[]]) [] =
      packChunks hdr (List.replicate n uSent ++ [[]]) (uSent ++ [' ']) := by
  rw [List.replicate_succ, List.cons_append]
  simp only [packChunks]
  rw [if_pos (by rw [List.length_nil, uSent_len]; decide)]
  rw [List.nil_append]

/-- The family `tBig n` yields exactly `n + 1` chunks. -/
theorem processChunks_tBig (n : Nat) : (processChunks (tBig n)).length = n + 1 := by
  rw [processChunks_single_section, cleanText_tBig]
  have hnl : '\n' ∉ tBig n ++ [' '] := by
    intro h
    rcases List.mem_append.mp h with h2 | h2
    · exact tBig_no_newline n h2
    · exact absurd (List.mem_singleton.mp h2) (by decide)
  rw [sectionChunks_no_newline hnl]
  have hlen : ¬ (tBig n ++ [' ']).length < minSectionLength := by
    unfold tBig
    rw [List.length_append, List.length_append, uSent_len, List.length_singleton]
    unfold minSectionLength
    omega
  rw [if_neg hlen]
  unfold sentSplit
  rw [tBig_sp, sentSplit_flat (n + 1) [], packChunks_entry, packChunks_ucount]

/-- C10 counterexample: the 501-sentence document `tBig 500` produces 501
chunks; nothing is discarded, so the claimed hard cap of 500 chunks per
document does not exist. -/
theorem chunk_cap_cex : 500 < (processChunks (tBig 500)).length := by
  rw [processChunks_tBig]
  omega

/-- C10 amended: the chunker enforces no cap at all — for every bound `n`
the document `tBig n` (n+1 sentences of 999 characters) yields more than
`n` chunks, and no chunk is ever discarded (exceeding any bound is not an
error; the chunk list is simply longer). -/
theorem chunk_count_unbounded (n : Nat) : n < (processChunks (tBig n)).length := by
  rw [processChunks_tBig]
  omega
